import Mathlib

/-!
Verification of the semi-supervised Gaussian-mixture VAE training code.

Tensors are modelled as functions out of `Fin`-indexed dimensions into `ℚ`;
`(B, D)`-shaped tensors become `Fin B → Fin D → ℚ`.  The transcendental
functions supplied by the framework (`exp`, `log`, `sigmoid`) are abstract
parameters `ℚ → ℚ`, so every definition stays computable and the algebraic
structure of each loss — the sums, broadcasts and one-hot selections the code
performs — is embedded exactly.
-/

open Finset in
/-- Row `c` of a one-hot matrix over `K` classes: 1 in column `c`, 0 elsewhere. -/
def oneHot (K : ℕ) (c : Fin K) : Fin K → ℚ :=
  fun j => if j = c then 1 else 0

/-- Elementwise binary cross entropy, the summand of
`F.binary_cross_entropy(p, t, reduction="sum")`. -/
def bceElt (log : ℚ → ℚ) (p t : ℚ) : ℚ :=
  -(t * log p + (1 - t) * log (1 - p))

/-- Embeds `F.binary_cross_entropy(torch.sigmoid(recon), data, reduction="sum")`
as called in both losses of `VAESemiSupervisedTrainer`. -/
def bceSum (log sigmoid : ℚ → ℚ) {B D2 : ℕ}
    (recon data : Fin B → Fin D2 → ℚ) : ℚ :=
  ∑ i : Fin B, ∑ d : Fin D2, bceElt log (sigmoid (recon i d)) (data i d)

/-- Embeds `q_mu - (true_y.unsqueeze(-1) * q_global_means.unsqueeze(0).repeat(len(q_mu),1,1)).sum(dim=1)`
from `VAESemiSupervisedTrainer.labeled_loss`: the label-weighted sum of the
per-class mean rows, subtracted from the posterior mean. -/
def q_means {B K D : ℕ} (q_mu : Fin B → Fin D → ℚ) (true_y : Fin B → Fin K → ℚ)
    (q_global_means : Fin K → Fin D → ℚ) : Fin B → Fin D → ℚ :=
  fun i d => q_mu i d - ∑ c : Fin K, true_y i c * q_global_means c d

/-- Embeds `VAESemiSupervisedTrainer.labeled_loss(data, labels, reconstructed,
latent_samples, q_vals)`.  `latent_samples = (z, z_global)` and
`q_global_log_var` are accepted and ignored exactly as in the source. -/
def labeled_loss (exp log sigmoid : ℚ → ℚ) {B K D D2 : ℕ}
    (data : Fin B → Fin D2 → ℚ) (labels : Fin B → Fin K → ℚ)
    (data_recon : Fin B → Fin D2 → ℚ)
    (_z : Fin B → Fin D → ℚ) (_z_global : Fin K → Fin D → ℚ)
    (q_mu q_logvar : Fin B → Fin D → ℚ)
    (q_global_means : Fin K → Fin D → ℚ) (_q_global_log_var : Fin K → Fin D → ℚ)
    (log_q_y : Fin B → Fin K → ℚ) : ℚ :=
  bceSum log sigmoid data_recon data
    + (-(1/2) * ∑ i : Fin B, ∑ d : Fin D,
        (1 + q_logvar i d - (q_means q_mu labels q_global_means i d) ^ 2
          - exp (q_logvar i d)))
    + (-∑ i : Fin B, ∑ c : Fin K, labels i c * log_q_y i c)

/-- The KL term as the specification words it: for each row the Gaussian KL
against the unit-variance component centred at `m_y`, the row of
`q_global_means` selected by that row's class. -/
def klSpecLabeled (exp : ℚ → ℚ) {B K D : ℕ} (cls : Fin B → Fin K)
    (q_mu q_logvar : Fin B → Fin D → ℚ)
    (q_global_means : Fin K → Fin D → ℚ) : ℚ :=
  -(1/2) * ∑ i : Fin B, ∑ d : Fin D,
    (1 + q_logvar i d - (q_mu i d - q_global_means (cls i) d) ^ 2
      - exp (q_logvar i d))

lemma oneHot_weighted_sum {K D : ℕ} (c : Fin K) (m : Fin K → Fin D → ℚ)
    (d : Fin D) : (∑ j : Fin K, oneHot K c j * m j d) = m c d := by
  simp [oneHot, ite_mul]

/-- Claim C1: on a labeled batch whose label matrix is one-hot with classes
`cls`, `labeled_loss` is exactly the summed binary cross entropy between the
sigmoid of the reconstruction and the data, plus the Gaussian KL towards the
unit-variance component centred at the class mean row `q_global_means (cls i)`,
plus the classifier cross entropy `-∑ y * log_q_y`. -/
theorem labeled_loss_eq_spec (exp log sigmoid : ℚ → ℚ) {B K D D2 : ℕ}
    (data : Fin B → Fin D2 → ℚ) (labels : Fin B → Fin K → ℚ)
    (data_recon : Fin B → Fin D2 → ℚ)
    (z : Fin B → Fin D → ℚ) (z_global : Fin K → Fin D → ℚ)
    (q_mu q_logvar : Fin B → Fin D → ℚ)
    (q_global_means q_global_log_var : Fin K → Fin D → ℚ)
    (log_q_y : Fin B → Fin K → ℚ)
    (cls : Fin B → Fin K) (hy : ∀ i, labels i = oneHot K (cls i)) :
    labeled_loss exp log sigmoid data labels data_recon z z_global
        q_mu q_logvar q_global_means q_global_log_var log_q_y =
      bceSum log sigmoid data_recon data
        + klSpecLabeled exp cls q_mu q_logvar q_global_means
        + (-∑ i : Fin B, ∑ c : Fin K, labels i c * log_q_y i c) := by
  have hqm : ∀ i d, q_means q_mu labels q_global_means i d =
      q_mu i d - q_global_means (cls i) d := by
    intro i d
    rw [q_means, hy i, oneHot_weighted_sum]
  simp only [labeled_loss, klSpecLabeled, hqm]

/-- Concrete instantiation of `labeled_loss_eq_spec` at a batch of one sample
over two classes, discharging the one-hot hypothesis by computation. -/
theorem labeled_loss_eq_spec_witness :
    (∀ i : Fin 1, (fun (_ : Fin 1) (c : Fin 2) => if c = 0 then (1 : ℚ) else 0) i
        = oneHot 2 ((fun (_ : Fin 1) => (0 : Fin 2)) i)) ∧
    @labeled_loss (fun q => q + 1) (fun q => q) (fun q => q) 1 2 1 1
        (fun _ _ => (1 : ℚ)) (fun _ c => if c = 0 then 1 else 0)
        (fun _ _ => 2) (fun _ _ => 0) (fun _ _ => 0)
        (fun _ _ => 3) (fun _ _ => 1) (fun _ _ => 5) (fun _ _ => 0)
        (fun _ _ => 4) =
      @bceSum (fun q => q) (fun q => q) 1 1 (fun _ _ => 2) (fun _ _ => 1)
        + @klSpecLabeled (fun q => q + 1) 1 2 1 (fun (_ : Fin 1) => (0 : Fin 2))
            (fun _ _ => 3) (fun _ _ => 1) (fun _ _ => 5)
        + (-∑ i : Fin 1, ∑ c : Fin 2,
            (if c = 0 then (1 : ℚ) else 0) * (fun (_ : Fin 1) (_ : Fin 2) => (4 : ℚ)) i c) := by
  refine ⟨by decide, ?_⟩
  exact @labeled_loss_eq_spec (fun q => q + 1) (fun q => q) (fun q => q) 1 2 1 1
    (fun _ _ => 1) (fun _ c => if c = 0 then 1 else 0) (fun _ _ => 2)
    (fun _ _ => 0) (fun _ _ => 0) (fun _ _ => 3) (fun _ _ => 1)
    (fun _ _ => 5) (fun _ _ => 0) (fun _ _ => 4) (fun (_ : Fin 1) => (0 : Fin 2))
    (by decide)

/-- Embeds `one_hot.scatter_(1, labels, src)` on a `(B, K)` tensor with a `(B, 1)`
integer index column: row `i` receives `src` in column `labels i`. -/
def scatterConst {B K : ℕ} (base : Fin B → Fin K → ℚ) (index : Fin B → ℕ)
    (src : ℚ) : Fin B → Fin K → ℚ :=
  fun i j => if (j : ℕ) = index i then src else base i j

/-- Embeds `convert_to_one_hot(num_categories, labels)` from `utils/data.py` and
(identically, up to the device move) `SemiSupervisedTrainer`: a zeroed
`(B, num_categories)` tensor with a 1 scattered into column `labels i` of
each row `i`. -/
def convert_to_one_hot (K : ℕ) {B : ℕ} (labels : Fin B → ℕ) :
    Fin B → Fin K → ℚ :=
  scatterConst (fun _ _ => 0) labels 1

/-- Claim C9: when every label lies in `[0, num_categories)`, each row of
`convert_to_one_hot` is 0 everywhere except a single 1 in the column given by
that row's label, and hence each row sums to exactly 1. -/
theorem convert_to_one_hot_spec (K B : ℕ) (labels : Fin B → ℕ)
    (h : ∀ i, labels i < K) :
    (∀ i j, convert_to_one_hot K labels i j
        = if (j : ℕ) = labels i then 1 else 0) ∧
    (∀ i, ∑ j : Fin K, convert_to_one_hot K labels i j = 1) := by
  refine ⟨fun i j => rfl, fun i => ?_⟩
  have hcond : ∀ j : Fin K, ((j : ℕ) = labels i) = (j = ⟨labels i, h i⟩) := by
    intro j
    simp [Fin.ext_iff]
  simp only [convert_to_one_hot, scatterConst, hcond]
  simp

/-- Concrete instantiation of `convert_to_one_hot_spec` over two rows and two
classes, with the bound hypothesis discharged by computation. -/
theorem convert_to_one_hot_spec_witness :
    (∀ i : Fin 2, (fun j : Fin 2 => (j : ℕ)) i < 2) ∧
    ((∀ i j, convert_to_one_hot 2 (fun j : Fin 2 => (j : ℕ)) i j
        = if (j : ℕ) = (i : ℕ) then 1 else 0) ∧
     (∀ i, ∑ j : Fin 2, convert_to_one_hot 2 (fun j : Fin 2 => (j : ℕ)) i j = 1)) :=
  ⟨by decide, convert_to_one_hot_spec 2 2 (fun j => (j : ℕ)) (by decide)⟩

/-- Embeds `VAE_Categorical.sample_labelled(labels)` with the projection and decoder
networks abstract and the standard-normal draw `eps` explicit: the latent is
`(labels.unsqueeze(2) * (means.repeat(B,1,1) + eps.unsqueeze(1).repeat(1,K,1))).sum(dim=1)`,
and the decoder is applied to its projection. -/
def sample_labelled {B K D V D2 : ℕ}
    (project : (Fin D → ℚ) → Fin V → ℚ) (decoder : (Fin V → ℚ) → Fin D2 → ℚ)
    (means : Fin K → Fin D → ℚ) (eps : Fin B → Fin D → ℚ)
    (labels : Fin B → Fin K → ℚ) : Fin B → Fin D2 → ℚ :=
  fun i => decoder (project
    (fun d => ∑ c : Fin K, labels i c * (means c d + eps i d)))

/-- Claim C5: for one-hot labels with classes `cls`, the latent row `i` built
by `sample_labelled` is the class mean `means (cls i)` plus row `i`'s single
standard-normal draw (the same draw that was added to every class before the
one-hot selection), and the returned batch is the decoder applied to the
projection of that latent. -/
theorem sample_labelled_eq_spec {B K D V D2 : ℕ}
    (project : (Fin D → ℚ) → Fin V → ℚ) (decoder : (Fin V → ℚ) → Fin D2 → ℚ)
    (means : Fin K → Fin D → ℚ) (eps : Fin B → Fin D → ℚ)
    (labels : Fin B → Fin K → ℚ)
    (cls : Fin B → Fin K) (hy : ∀ i, labels i = oneHot K (cls i)) :
    sample_labelled project decoder means eps labels =
      fun i => decoder (project (fun d => means (cls i) d + eps i d)) := by
  funext i
  have hl : (fun d : Fin D => ∑ c : Fin K, labels i c * (means c d + eps i d))
      = fun d => means (cls i) d + eps i d := by
    funext d
    rw [hy i]
    exact oneHot_weighted_sum (cls i) (fun c d => means c d + eps i d) d
  rw [sample_labelled, hl]

/-- Concrete instantiation of `sample_labelled_eq_spec` at one sample over two
classes, with the one-hot hypothesis discharged by computation. -/
theorem sample_labelled_eq_spec_witness :
    (∀ i : Fin 1, (fun (_ : Fin 1) (c : Fin 2) => if c = 0 then (1 : ℚ) else 0) i
        = oneHot 2 ((fun (_ : Fin 1) => (0 : Fin 2)) i)) ∧
    @sample_labelled 1 2 1 1 1 (fun v => v) (fun v => v)
        (fun c _ => if c = 0 then 3 else 5) (fun _ _ => 7)
        (fun _ c => if c = 0 then 1 else 0) =
      fun i => (fun v => v) ((fun v => v)
        (fun d => (fun (c : Fin 2) (_ : Fin 1) => if c = 0 then (3 : ℚ) else 5)
          ((fun (_ : Fin 1) => (0 : Fin 2)) i) d + (7 : ℚ))) :=
  ⟨by decide, @sample_labelled_eq_spec 1 2 1 1 1 (fun v => v) (fun v => v)
    (fun c _ => if c = 0 then 3 else 5) (fun _ _ => 7)
    (fun _ c => if c = 0 then 1 else 0) (fun _ => 0) (by decide)⟩

/-- Embeds `mu + eps * torch.exp(logvar)` — `VAE_Categorical.reparameterize` with
the `randn_like` draw `eps` explicit. -/
def reparameterize (exp : ℚ → ℚ) (mu logvar eps : ℚ) : ℚ :=
  mu + eps * exp logvar

/-- Embeds `MultivariateNormal(zeros(D), eye(D)).log_prob(v)`, with the constant
`log (2 * pi)` an abstract parameter. -/
def mvnLogProb (log2pi : ℚ) {D : ℕ} (v : Fin D → ℚ) : ℚ :=
  -(1/2) * ((D : ℚ) * log2pi + ∑ d : Fin D, v d ^ 2)

/-- Embeds `VAE_Categorical.discriminator(z_means, q_mu, q_logvar)`: the standard-MVN
log density of `(qs - ms) / (sigs + ms_sigs)` with `sigs = exp(q_logvar)`
broadcast over classes and `ms_sigs = exp(q_log_var)` broadcast over the
batch. -/
def discriminator (exp : ℚ → ℚ) (log2pi : ℚ) {B K D : ℕ}
    (q_log_var : Fin K → Fin D → ℚ) (z_means : Fin K → Fin D → ℚ)
    (q_mu q_logvar : Fin B → Fin D → ℚ) : Fin B → Fin K → ℚ :=
  fun i c => mvnLogProb log2pi
    (fun d => (q_mu i d - z_means c d) / (exp (q_logvar i d) + exp (q_log_var c d)))

/-- Embeds `label_log_prob - torch.logsumexp(label_log_prob, dim=1).unsqueeze(1)`,
the row-wise log-softmax normalisation used by both forward passes. -/
def logSoftmaxRows (exp log : ℚ → ℚ) {B K : ℕ}
    (label_log_prob : Fin B → Fin K → ℚ) : Fin B → Fin K → ℚ :=
  fun i c => label_log_prob i c - log (∑ j : Fin K, exp (label_log_prob i j))

/-- The learned networks and parameters of a `VAE_Categorical` relevant to its
forward passes: the convolutional encoder composed with the `q_mean` /
`q_logvar` heads, the `project` layer, the deconvolutional decoder, and the
`means` / `q_log_var` per-class parameters. -/
structure VAECategoricalNet (N V D K : ℕ) where
  encoder : (Fin N → ℚ) → Fin V → ℚ
  q_mean : (Fin V → ℚ) → Fin D → ℚ
  q_logvar : (Fin V → ℚ) → Fin D → ℚ
  project : (Fin D → ℚ) → Fin V → ℚ
  decoder : (Fin V → ℚ) → Fin N → ℚ
  means : Fin K → Fin D → ℚ
  q_log_var : Fin K → Fin D → ℚ

/-- The tuple returned by `VAE_Categorical.forward_unlabelled`:
`(x_reconstructed, (z, z_means), (q_mu, q_logvar, means, q_log_var, pred_label_sm_log))`. -/
def forward_unlabelled (exp log : ℚ → ℚ) (log2pi : ℚ) {B N V D K : ℕ}
    (net : VAECategoricalNet N V D K)
    (x : Fin B → Fin N → ℚ)
    (eps_z : Fin B → Fin D → ℚ) (eps_means : Fin K → Fin D → ℚ) :
    (Fin B → Fin N → ℚ) × ((Fin B → Fin D → ℚ) × (Fin K → Fin D → ℚ))
      × ((Fin B → Fin D → ℚ) × (Fin B → Fin D → ℚ) × (Fin K → Fin D → ℚ)
          × (Fin K → Fin D → ℚ) × (Fin B → Fin K → ℚ)) :=
  let q_mu : Fin B → Fin D → ℚ := fun i => net.q_mean (net.encoder (x i))
  let q_logvar : Fin B → Fin D → ℚ := fun i => net.q_logvar (net.encoder (x i))
  let z : Fin B → Fin D → ℚ :=
    fun i d => reparameterize exp (q_mu i d) (q_logvar i d) (eps_z i d)
  let z_means : Fin K → Fin D → ℚ :=
    fun c d => reparameterize exp (net.means c d) (net.q_log_var c d) (eps_means c d)
  let x_reconstructed : Fin B → Fin N → ℚ := fun i => net.decoder (net.project (z i))
  let label_log_prob := discriminator exp log2pi net.q_log_var net.means q_mu q_logvar
  let pred_label_sm_log := logSoftmaxRows exp log label_log_prob
  (x_reconstructed, (z, z_means), (q_mu, q_logvar, net.means, net.q_log_var, pred_label_sm_log))

/-- The tuple returned by `VAE_Categorical.forward_labelled`: the same three
components followed by `one_hot_labels`. -/
def forward_labelled (exp log : ℚ → ℚ) (log2pi : ℚ) {B N V D K : ℕ}
    (net : VAECategoricalNet N V D K)
    (x : Fin B → Fin N → ℚ) (one_hot_labels : Fin B → Fin K → ℚ)
    (eps_z : Fin B → Fin D → ℚ) (eps_means : Fin K → Fin D → ℚ) :
    (Fin B → Fin N → ℚ) × ((Fin B → Fin D → ℚ) × (Fin K → Fin D → ℚ))
      × ((Fin B → Fin D → ℚ) × (Fin B → Fin D → ℚ) × (Fin K → Fin D → ℚ)
          × (Fin K → Fin D → ℚ) × (Fin B → Fin K → ℚ)) × (Fin B → Fin K → ℚ) :=
  let q_mu : Fin B → Fin D → ℚ := fun i => net.q_mean (net.encoder (x i))
  let q_logvar : Fin B → Fin D → ℚ := fun i => net.q_logvar (net.encoder (x i))
  let z : Fin B → Fin D → ℚ :=
    fun i d => reparameterize exp (q_mu i d) (q_logvar i d) (eps_z i d)
  let x_reconstructed : Fin B → Fin N → ℚ := fun i => net.decoder (net.project (z i))
  let z_means : Fin K → Fin D → ℚ :=
    fun c d => reparameterize exp (net.means c d) (net.q_log_var c d) (eps_means c d)
  let label_log_prob := discriminator exp log2pi net.q_log_var net.means q_mu q_logvar
  let pred_label_sm_log := logSoftmaxRows exp log label_log_prob
  (x_reconstructed, (z, z_means),
    (q_mu, q_logvar, net.means, net.q_log_var, pred_label_sm_log), one_hot_labels)

/-- Embeds `VAE_Categorical.forward((data, labels))`: dispatch to the labelled pass
when labels are present and to the unlabelled pass otherwise. -/
def VAECategoricalForward (exp log : ℚ → ℚ) (log2pi : ℚ) {B N V D K : ℕ}
    (net : VAECategoricalNet N V D K)
    (x : Fin B → Fin N → ℚ) (labels : Option (Fin B → Fin K → ℚ))
    (eps_z : Fin B → Fin D → ℚ) (eps_means : Fin K → Fin D → ℚ) :
    ((Fin B → Fin N → ℚ) × ((Fin B → Fin D → ℚ) × (Fin K → Fin D → ℚ))
      × ((Fin B → Fin D → ℚ) × (Fin B → Fin D → ℚ) × (Fin K → Fin D → ℚ)
          × (Fin K → Fin D → ℚ) × (Fin B → Fin K → ℚ))) ⊕
    ((Fin B → Fin N → ℚ) × ((Fin B → Fin D → ℚ) × (Fin K → Fin D → ℚ))
      × ((Fin B → Fin D → ℚ) × (Fin B → Fin D → ℚ) × (Fin K → Fin D → ℚ)
          × (Fin K → Fin D → ℚ) × (Fin B → Fin K → ℚ)) × (Fin B → Fin K → ℚ)) :=
  match labels with
  | some y => Sum.inr (forward_labelled exp log log2pi net x y eps_z eps_means)
  | none => Sum.inl (forward_unlabelled exp log log2pi net x eps_z eps_means)

/-- Claim C8: with identical noise draws, `forward((x, y))` routes to the
labelled pass whose first three components coincide with the three components
of `forward((x, None))`, and whose fourth component is `y` unchanged — labels
only append to the output and never alter the reconstruction, latent samples
or posterior quantities. -/
theorem forward_labelled_refines_unlabelled (exp log : ℚ → ℚ) (log2pi : ℚ)
    {B N V D K : ℕ} (net : VAECategoricalNet N V D K)
    (x : Fin B → Fin N → ℚ) (y : Fin B → Fin K → ℚ)
    (eps_z : Fin B → Fin D → ℚ) (eps_means : Fin K → Fin D → ℚ) :
    VAECategoricalForward exp log log2pi net x (some y) eps_z eps_means
      = Sum.inr (((forward_unlabelled exp log log2pi net x eps_z eps_means).1,
          (forward_unlabelled exp log log2pi net x eps_z eps_means).2.1,
          (forward_unlabelled exp log log2pi net x eps_z eps_means).2.2, y)) ∧
    VAECategoricalForward exp log log2pi net x none eps_z eps_means
      = Sum.inl (forward_unlabelled exp log log2pi net x eps_z eps_means) :=
  ⟨rfl, rfl⟩

/-- The per-category tensor
`KLD_cont = -0.5 * (1 + q_logvar - (q_mu - q_means).pow(2) - q_logvar.exp()).sum(dim=1)`
computed inside the loop of `VAESemiSupervisedTrainer.unlabeled_loss`.  The
source assigns it on every loop pass but never reads it. -/
def unlabeled_KLD_cont (exp : ℚ → ℚ) {B K D : ℕ}
    (q_mu q_logvar : Fin B → Fin D → ℚ) (q_global_means : Fin K → Fin D → ℚ)
    (cat : Fin K) : Fin B → ℚ :=
  fun i => -(1/2) * ∑ d : Fin D,
    (1 + q_logvar i d - (q_mu i d - q_global_means cat d) ^ 2 - exp (q_logvar i d))

/-- Embeds `VAESemiSupervisedTrainer.unlabeled_loss(data, reconstructed,
latent_samples, q_vals)`: the summed binary cross entropy plus, accumulated
over the categories, `(q_y * (q_y + log_q_y)).sum()` with `q_y = exp(log_q_y)`.
The tensor `unlabeled_KLD_cont` the loop also computes never reaches the
returned value, so `q_mu`, `q_logvar` and `q_global_means` are dead here. -/
def unlabeled_loss (exp log sigmoid : ℚ → ℚ) {B K D D2 : ℕ}
    (data : Fin B → Fin D2 → ℚ) (data_recon : Fin B → Fin D2 → ℚ)
    (_z : Fin B → Fin D → ℚ) (_z_global : Fin K → Fin D → ℚ)
    (_q_mu _q_logvar : Fin B → Fin D → ℚ)
    (_q_global_means : Fin K → Fin D → ℚ) (_q_global_log_var : Fin K → Fin D → ℚ)
    (log_q_ys : Fin B → Fin K → ℚ) : ℚ :=
  bceSum log sigmoid data_recon data
    + ∑ cat : Fin K, ∑ i : Fin B,
        exp (log_q_ys i cat) * (exp (log_q_ys i cat) + log_q_ys i cat)

/-- Claim C2 (divergence): the value of `unlabeled_loss` is entirely
independent of the encoder posterior `(q_mu, q_logvar)` and of the class
means, because the per-category weighted KL tensor it computes is never added
into the returned loss.  An objective containing the class-posterior-weighted
KL between `N(q_mu, diag(exp q_logvar))` and each class component would have
to change with `q_mu`. -/
theorem unlabeled_loss_independent_of_posterior
    (exp log sigmoid : ℚ → ℚ) {B K D D2 : ℕ}
    (data : Fin B → Fin D2 → ℚ) (data_recon : Fin B → Fin D2 → ℚ)
    (z z' : Fin B → Fin D → ℚ) (z_global z_global' : Fin K → Fin D → ℚ)
    (q_mu q_logvar q_mu' q_logvar' : Fin B → Fin D → ℚ)
    (q_global_means q_global_means' : Fin K → Fin D → ℚ)
    (q_global_log_var q_global_log_var' : Fin K → Fin D → ℚ)
    (log_q_ys : Fin B → Fin K → ℚ) :
    unlabeled_loss exp log sigmoid data data_recon z z_global
        q_mu q_logvar q_global_means q_global_log_var log_q_ys =
      unlabeled_loss exp log sigmoid data data_recon z' z_global'
        q_mu' q_logvar' q_global_means' q_global_log_var' log_q_ys :=
  rfl

/-- The rows of the `DATASET_CONFIGS` dictionary in
`SemiSupervisedTrainer.get_datasets`. -/
structure DatasetConfig where
  size : ℕ
  channels : ℕ
  classes : ℕ
  deriving DecidableEq

/-- The `DATASET_CONFIGS` dictionary: `MNIST`, `CIFAR10` and `CIFAR100` are
its only keys; any other lookup raises. -/
def DATASET_CONFIGS (dataset : String) : Option DatasetConfig :=
  if dataset = "MNIST" then some ⟨32, 1, 10⟩
  else if dataset = "CIFAR10" then some ⟨32, 3, 10⟩
  else if dataset = "CIFAR100" then some ⟨32, 3, 100⟩
  else none

/-- The third component returned by `SemiSupervisedTrainer.get_datasets`,
which the source computes as `configs['size']`. -/
def get_datasets_num_categories (dataset : String) : Option ℕ :=
  (DATASET_CONFIGS dataset).map DatasetConfig.size

/-- Claim C6 (divergence): for each supported dataset the third component of
`get_datasets` is the image size 32, not the class count — in particular for
CIFAR100, whose own config row records 100 classes. -/
theorem get_datasets_num_categories_is_size :
    get_datasets_num_categories "MNIST" = some 32 ∧
    get_datasets_num_categories "CIFAR10" = some 32 ∧
    get_datasets_num_categories "CIFAR100" = some 32 ∧
    (DATASET_CONFIGS "CIFAR100").map DatasetConfig.classes = some 100 ∧
    get_datasets_num_categories "CIFAR100"
      ≠ (DATASET_CONFIGS "CIFAR100").map DatasetConfig.classes := by
  refine ⟨by decide, by decide, by decide, by decide, by decide⟩

/-- The indices `np.where(reduce(__or__, [labels == i for i in
np.arange(n_categories)]))` selects in `get_samplers`: positions whose label
is one of the `n_categories` classes, in position order.  `np.random.shuffle`
then permutes them, so callers below receive an arbitrary permutation of this
list. -/
def selectedIndices (labels : List ℤ) (n_categories : ℕ) : List ℕ :=
  (List.range labels.length).filter
    (fun i => (List.range n_categories).any (fun c => labels.getD i 0 == (c : ℤ)))

/-- Embeds `np.hstack([list(filter(lambda idx: labels[idx] == i, indices))[:n] for i
in range(n_categories)])` from `get_samplers`: per class, the first `n`
shuffled indices carrying that class. -/
def labeledIndices (labels : List ℤ) (n n_categories : ℕ)
    (indices : List ℕ) : List ℕ :=
  (List.range n_categories).flatMap
    (fun c => (indices.filter (fun idx => decide (labels.getD idx 0 = (c : ℤ)))).take n)

/-- The pair of index lists underlying the two `SubsetRandomSampler`s that
`get_samplers` returns, with the initial `np.random.shuffle` abstracted into
the `indices` argument.  The two final `np.random.choice(a, len(a),
replace=False)` calls draw full-length permutations and so leave both index
sets unchanged; they are omitted.  (`len(indices_unlabeled) //
len(indices_labeled)` requires a nonempty labeled list in Python; here `/` is
truncated `Nat` division.) -/
def get_samplers_indices (labels : List ℤ) (n n_categories : ℕ)
    (indices : List ℕ) : List ℕ × List ℕ :=
  let indices_labeled := labeledIndices labels n n_categories indices
  let indices_unlabeled := indices.filter (fun idx => decide (idx ∉ indices_labeled))
  let rep := indices_unlabeled.length / indices_labeled.length
  let indices_labeled_rep := indices_labeled.flatMap (fun idx => List.replicate rep idx)
  (indices_labeled_rep, indices_unlabeled.take indices_labeled_rep.length)

lemma mem_labeledIndices_of_mem_rep {labels : List ℤ} {n n_categories : ℕ}
    {indices : List ℕ} {x : ℕ}
    (hx : x ∈ (get_samplers_indices labels n n_categories indices).1) :
    x ∈ labeledIndices labels n n_categories indices := by
  obtain ⟨y, hy, hxy⟩ := List.mem_flatMap.mp hx
  rw [List.eq_of_mem_replicate hxy]
  exact hy

lemma labeledIndices_subset {labels : List ℤ} {n n_categories : ℕ}
    {indices : List ℕ} {x : ℕ}
    (hx : x ∈ labeledIndices labels n n_categories indices) : x ∈ indices := by
  obtain ⟨c, _, hc⟩ := List.mem_flatMap.mp hx
  exact List.mem_of_mem_filter (List.mem_of_mem_take hc)

/-- Claim C3, amended: the labeled sampler holds at most `n` distinct indices
of each class, the unlabeled sampler's index set is disjoint from the labeled
one, and both index sets draw from the selected (shuffled) indices — but they
need not cover them, so the two samplers do not in general partition the
selected data. -/
theorem get_samplers_spec (labels : List ℤ) (n n_categories : ℕ)
    (indices : List ℕ) :
    (∀ c : ℕ,
      (((get_samplers_indices labels n n_categories indices).1.toFinset.filter
          (fun idx => labels.getD idx 0 = (c : ℤ))).card ≤ n)) ∧
    (∀ x, x ∈ (get_samplers_indices labels n n_categories indices).1 →
      x ∉ (get_samplers_indices labels n n_categories indices).2) ∧
    (∀ x, x ∈ (get_samplers_indices labels n n_categories indices).1 ∨
        x ∈ (get_samplers_indices labels n n_categories indices).2 →
      x ∈ indices) := by
  refine ⟨fun c => ?_, fun x hx1 hx2 => ?_, fun x hx => ?_⟩
  · have hsub :
        (get_samplers_indices labels n n_categories indices).1.toFinset.filter
            (fun idx => labels.getD idx 0 = (c : ℤ)) ⊆
          ((indices.filter
            (fun idx => decide (labels.getD idx 0 = (c : ℤ)))).take n).toFinset := by
      intro x hx
      obtain ⟨hx1, hlab⟩ := Finset.mem_filter.mp hx
      have hxl := mem_labeledIndices_of_mem_rep (List.mem_toFinset.mp hx1)
      obtain ⟨c', _, hc'⟩ := List.mem_flatMap.mp hxl
      have hlab' : labels.getD x 0 = (c' : ℤ) := by
        have h1 := List.mem_of_mem_take hc'
        have h2 := List.of_mem_filter h1
        simpa using h2
      have : c' = c := by
        have := hlab'.symm.trans hlab
        exact_mod_cast this
      rw [List.mem_toFinset]
      rw [this] at hc'
      exact hc'
    calc (((get_samplers_indices labels n n_categories indices).1.toFinset.filter
            (fun idx => labels.getD idx 0 = (c : ℤ))).card)
        ≤ ((indices.filter
            (fun idx => decide (labels.getD idx 0 = (c : ℤ)))).take n).toFinset.card :=
          Finset.card_le_card hsub
      _ ≤ ((indices.filter
            (fun idx => decide (labels.getD idx 0 = (c : ℤ)))).take n).length :=
          List.toFinset_card_le _
      _ ≤ n := by simp
  · have hxl := mem_labeledIndices_of_mem_rep hx1
    have hxu := List.mem_of_mem_take hx2
    have hnot : x ∉ labeledIndices labels n n_categories indices := by
      have h1 := List.of_mem_filter hxu
      simpa using h1
    exact hnot hxl
  · rcases hx with hx | hx
    · exact labeledIndices_subset (mem_labeledIndices_of_mem_rep hx)
    · exact List.mem_of_mem_filter (List.mem_of_mem_take hx)

/-- Counterexample for Claim C3 as stated: with labels `[0,1,0,0,0]`, `n = 1`,
two classes and the identity shuffle, every hypothesis of the claim holds
(`n ≥ 1`, the index list is a permutation of the selected indices, each class
occurs), yet the union of the two samplers' index sets is `{0,1,2,3}`, not the
selected set `{0,1,2,3,4}`: the truncation of the unlabeled list drops index
4, so the samplers do not partition the selected data. -/
theorem get_samplers_not_partition :
    (1 : ℕ) ≥ 1 ∧
    List.Perm [0, 1, 2, 3, 4] (selectedIndices [0, 1, 0, 0, 0] 2) ∧
    (∀ c ∈ List.range 2, ∃ i ∈ selectedIndices [0, 1, 0, 0, 0] 2,
      ([0, 1, 0, 0, 0] : List ℤ).getD i 0 = (c : ℤ)) ∧
    ((get_samplers_indices [0, 1, 0, 0, 0] 1 2 [0, 1, 2, 3, 4]).1.toFinset ∪
        (get_samplers_indices [0, 1, 0, 0, 0] 1 2 [0, 1, 2, 3, 4]).2.toFinset)
      ≠ (selectedIndices [0, 1, 0, 0, 0] 2).toFinset := by
  refine ⟨by decide, by decide, by decide, by decide⟩

/-- One pass of `SemiSupervisedTrainer.train` over the unlabeled loader, with
the model, the two loss computations (each taking the current network and a
batch, covering `net((data, labels))` composed with the loss) and the
backward/clip/`optimizer.step()` update abstract.  The `for` loop walks the
unlabeled batches; each iteration calls `next` on the labeled iterator
(`none` models the `StopIteration` that escapes when it is exhausted),
computes `loss = loss_l + loss_u` — the unlabeled term guarded by
`if epoch > -1` — and takes one optimizer step on it.  The returned trace
records, per iteration, the unlabeled batch, the labeled batch and the loss
stepped on. -/
def trainEpoch {Net U L : Type} (epoch : ℤ) (lossL : Net → L → ℚ)
    (lossU : Net → U → ℚ) (stepf : Net → ℚ → Net) :
    Net → List U → List L → Option (Net × List (U × L × ℚ))
  | net, [], _ => some (net, [])
  | _, _ :: _, [] => none
  | net, u :: us, l :: ls =>
      (trainEpoch epoch lossL lossU stepf
          (stepf net (lossL net l + if epoch > -1 then lossU net u else 0)) us ls).map
        (fun r => (r.1, (u, l, lossL net l + if epoch > -1 then lossU net u else 0) :: r.2))

/-- The behaviour Claim C4 describes, written directly: batches are consumed
strictly in labeled/unlabeled pairs, and every gradient step is taken on
`labeled_loss + unlabeled_loss` of that pair. -/
def altRun {Net U L : Type} (lossL : Net → L → ℚ) (lossU : Net → U → ℚ)
    (stepf : Net → ℚ → Net) : Net → List (U × L) → Net × List (U × L × ℚ)
  | net, [] => (net, [])
  | net, (u, l) :: rest =>
      let loss := lossL net l + lossU net u
      let r := altRun lossL lossU stepf (stepf net loss) rest
      (r.1, (u, l, loss) :: r.2)

/-- Claim C4: in a training epoch (`epoch ≥ 0`, so the `epoch > -1` guard
passes) with at least as many labeled as unlabeled batches, every iteration
consumes exactly one unlabeled and one labeled mini-batch — the `k`-th of
each — and takes its single optimizer step on
`labeled_loss(labeled batch) + unlabeled_loss(unlabeled batch)`. -/
theorem trainEpoch_alternates {Net U L : Type} (epoch : ℤ) (hep : 0 ≤ epoch)
    (lossL : Net → L → ℚ) (lossU : Net → U → ℚ) (stepf : Net → ℚ → Net)
    (net : Net) (us : List U) (ls : List L) (h : us.length ≤ ls.length) :
    trainEpoch epoch lossL lossU stepf net us ls
      = some (altRun lossL lossU stepf net (us.zip ls)) := by
  induction us generalizing net ls with
  | nil => simp [trainEpoch, altRun]
  | cons u us ih =>
      cases ls with
      | nil => simp at h
      | cons l ls =>
          have hguard : epoch > -1 := by omega
          simp only [trainEpoch, altRun, hguard, if_pos, List.zip_cons_cons]
          rw [ih _ ls (by simpa using h)]
          rfl

/-- Concrete instantiation of `trainEpoch_alternates`: two unlabeled and two
labeled rational batches, additive step function. -/
theorem trainEpoch_alternates_witness :
    (0 : ℤ) ≤ 1 ∧ ([(10 : ℚ), 20] : List ℚ).length ≤ ([(1 : ℚ), 2] : List ℚ).length ∧
    trainEpoch 1 (fun (n : ℚ) (l : ℚ) => n + l) (fun n u => n * u)
        (fun n q => n + q) 0 [(10 : ℚ), 20] [(1 : ℚ), 2]
      = some (altRun (fun (n : ℚ) (l : ℚ) => n + l) (fun n u => n * u)
          (fun n q => n + q) 0 ([(10 : ℚ), 20].zip [(1 : ℚ), 2])) :=
  ⟨by decide, by decide,
    trainEpoch_alternates 1 (by decide) (fun n l => n + l) (fun n u => n * u)
      (fun n q => n + q) 0 [10, 20] [1, 2] (by decide)⟩

/-- Embeds `Gaussian.sample(n) = 5 * np.random.randn(n, 2)` with the standard-normal
draws explicit: `n` two-dimensional points. -/
def Gaussian.sample (noise : ℕ → ℚ × ℚ) (n : ℕ) : List (ℚ × ℚ) :=
  (List.range n).map (fun i => (5 * (noise i).1, 5 * (noise i).2))

/-- The four component offsets `[-3,0]`, `[3,0]`, `[0,-3]`, `[0,3]` of
`GaussianMixture.sample`. -/
def gmOffset : ℕ → ℚ × ℚ
  | 0 => (-3, 0)
  | 1 => (3, 0)
  | 2 => (0, -3)
  | _ => (0, 3)

/-- Embeds `GaussianMixture.sample(n)`: after `assert n % 2 == 0` (modelled as
`none` on failure), the row-stack of four blocks of
`np.random.randn(n // 2, 2) * 1 + offset`. -/
def GaussianMixture.sample (noise : ℕ → ℕ → ℚ × ℚ) (n : ℕ) :
    Option (List (ℚ × ℚ)) :=
  if n % 2 = 0 then
    some ((List.range 4).flatMap (fun k =>
      (List.range (n / 2)).map (fun i =>
        ((noise k i).1 * 1 + (gmOffset k).1, (noise k i).2 * 1 + (gmOffset k).2))))
  else none

/-- Embeds `ConstraintedSampler.term1(x)` applied to one point:
`(x[:,1] > 2.5) & (x[:,1] < 5.5) & (x[:,0] > -0.5) & (x[:,0] < 0.5)`. -/
def term1 (p : ℚ × ℚ) : Bool :=
  decide (p.2 > 5/2) && decide (p.2 < 11/2) && decide (p.1 > -(1/2))
    && decide (p.1 < 1/2)

/-- Embeds `ConstraintedSampler.rotate(x, theta)` on one point: `term1` of the row
product with the rotation matrix, the rotation given by its
`(cos theta, sin theta)` pair. -/
def rotateValid (rot : ℚ × ℚ) (p : ℚ × ℚ) : Bool :=
  term1 (p.1 * rot.1 + p.2 * rot.2, p.1 * (-rot.2) + p.2 * rot.1)

/-- The `while len(constrained) < n` rejection loop of
`ConstraintedSampler.sample` for one rotation, with an explicit fuel bound on
the number of passes (the Python loop may run unboundedly, doubling the draw
each pass): at pass `count`, draw `super().sample(n * 2 ** count)` and keep
the points valid under the rotation. -/
def constrainedDraw (noise : ℕ → ℕ → ℚ × ℚ) (rot : ℚ × ℚ) (n : ℕ) :
    ℕ → ℕ → Option (List (ℚ × ℚ))
  | 0, _ => none
  | fuel + 1, count =>
      let constrained := (Gaussian.sample (noise count) (n * 2 ^ count)).filter
        (rotateValid rot)
      if n ≤ constrained.length then some constrained
      else constrainedDraw noise rot n fuel (count + 1)

/-- The `terms` list of `ConstraintedSampler.sample`: one constrained draw per
rotation, each rotation with its own noise family, failing if any rejection
loop exhausts its fuel. -/
def drawTerms (noise : ℕ → ℕ → ℕ → ℚ × ℚ) (n fuel : ℕ) :
    ℕ → List (ℚ × ℚ) → Option (List (List (ℚ × ℚ)))
  | _, [] => some []
  | i, rot :: rest =>
      match constrainedDraw (noise i) rot n fuel 1 with
      | none => none
      | some t => (drawTerms noise n fuel (i + 1) rest).map (fun ts => t :: ts)

/-- Embeds `ConstraintedSampler.sample(n)` (without term labels): concatenate the
per-rotation terms, permute them (`np.random.choice` over all positions
without replacement, abstracted into `shuffle`), and return the first `n`
points. -/
def ConstraintedSampler.sample (noise : ℕ → ℕ → ℕ → ℚ × ℚ)
    (shuffle : List (ℚ × ℚ) → List (ℚ × ℚ)) (rotations : List (ℚ × ℚ))
    (fuel n : ℕ) : Option (List (ℚ × ℚ)) :=
  match drawTerms noise n fuel 0 rotations with
  | none => none
  | some terms => some ((shuffle terms.flatten).take n)

lemma constrainedDraw_length {noise : ℕ → ℕ → ℚ × ℚ} {rot : ℚ × ℚ}
    {n fuel count : ℕ} {c : List (ℚ × ℚ)}
    (h : constrainedDraw noise rot n fuel count = some c) : n ≤ c.length := by
  induction fuel generalizing count with
  | zero => exact absurd h (by simp [constrainedDraw])
  | succ fuel ih =>
      rw [constrainedDraw] at h
      by_cases hn : n ≤ ((Gaussian.sample (noise count) (n * 2 ^ count)).filter
          (rotateValid rot)).length
      · rw [if_pos hn] at h
        cases h
        exact hn
      · rw [if_neg hn] at h
        exact ih h

lemma drawTerms_length {noise : ℕ → ℕ → ℕ → ℚ × ℚ} {n fuel i : ℕ}
    {rots : List (ℚ × ℚ)} {terms : List (List (ℚ × ℚ))}
    (h : drawTerms noise n fuel i rots = some terms) :
    terms.length = rots.length ∧ ∀ t ∈ terms, n ≤ t.length := by
  induction rots generalizing i terms with
  | nil =>
      rw [drawTerms] at h
      cases h
      simp
  | cons rot rest ih =>
      rw [drawTerms] at h
      cases hc : constrainedDraw (noise i) rot n fuel 1 with
      | none => rw [hc] at h; cases h
      | some t =>
          rw [hc] at h
          cases hr : drawTerms noise n fuel (i + 1) rest with
          | none => rw [hr] at h; cases h
          | some ts =>
              rw [hr] at h
              cases h
              obtain ⟨hlen, hall⟩ := ih hr
              refine ⟨by simp [hlen], fun t' ht' => ?_⟩
              rcases List.mem_cons.mp ht' with rfl | ht'
              · exact constrainedDraw_length hc
              · exact hall t' ht'

/-- Claim C7, amended: `Gaussian.sample(n)` returns exactly `n`
two-dimensional points and, whenever its rejection loops return,
`ConstraintedSampler.sample(n)` does too; but `GaussianMixture.sample(n)`
stacks four blocks of `n // 2` points and so returns `2 * n` points for even
`n`, not `n`. -/
theorem samplers_sample_length :
    (∀ (noise : ℕ → ℚ × ℚ) (n : ℕ), (Gaussian.sample noise n).length = n) ∧
    (∀ (noise : ℕ → ℕ → ℚ × ℚ) (n : ℕ) (r : List (ℚ × ℚ)), n % 2 = 0 →
      GaussianMixture.sample noise n = some r → r.length = 2 * n) ∧
    (∀ (noise : ℕ → ℕ → ℕ → ℚ × ℚ) (shuffle : List (ℚ × ℚ) → List (ℚ × ℚ))
        (rotations : List (ℚ × ℚ)) (fuel n : ℕ) (r : List (ℚ × ℚ)),
      (∀ l, List.Perm (shuffle l) l) → rotations ≠ [] →
      ConstraintedSampler.sample noise shuffle rotations fuel n = some r →
      r.length = n) := by
  refine ⟨fun noise n => by simp [Gaussian.sample], ?_, ?_⟩
  · intro noise n r hn hr
    rw [GaussianMixture.sample, if_pos hn] at hr
    cases hr
    simp only [List.length_flatMap]
    simp [List.range_succ]
    omega
  · intro noise shuffle rotations fuel n r hperm hrot hr
    rw [ConstraintedSampler.sample] at hr
    cases hterms : drawTerms noise n fuel 0 rotations with
    | none => rw [hterms] at hr; cases hr
    | some terms =>
        rw [hterms] at hr
        cases hr
        obtain ⟨hlen, hall⟩ := drawTerms_length hterms
        have hflat : n ≤ terms.flatten.length := by
          cases terms with
          | nil =>
              cases rotations with
              | nil => exact absurd rfl hrot
              | cons _ _ => simp at hlen
          | cons t ts =>
              have ht : n ≤ t.length := hall t (List.mem_cons_self t ts)
              simp only [List.flatten_cons, List.length_append]
              omega
        have hs : (shuffle terms.flatten).length = terms.flatten.length :=
          (hperm terms.flatten).length_eq
        rw [List.length_take, hs]
        omega

/-- Counterexample for Claim C7 as stated: at the even sample size `n = 2`
(with zero noise), `GaussianMixture.sample` returns four points, not two. -/
theorem gaussian_mixture_sample_length_ne :
    (GaussianMixture.sample (fun _ _ => (0, 0)) 2).map List.length = some 4 ∧
    (4 : ℕ) ≠ 2 := by
  refine ⟨by decide, by decide⟩

/-- Concrete instantiation of every part of `samplers_sample_length`: three
points from `Gaussian.sample`, the four-block stack at `n = 2`, and a
one-rotation constrained draw whose first pass already yields enough valid
points under the identity shuffle. -/
theorem samplers_sample_length_witness :
    (Gaussian.sample (fun _ => (1, 2)) 3).length = 3 ∧
    ((2 : ℕ) % 2 = 0 ∧
      GaussianMixture.sample (fun _ _ => (0, 0)) 2
        = some [(-3, 0), (3, 0), (0, -3), (0, 3)] ∧
      ([(-3, 0), (3, 0), (0, -3), (0, 3)] : List (ℚ × ℚ)).length = 2 * 2) ∧
    ((∀ l : List (ℚ × ℚ), List.Perm (id l) l) ∧
      ([((1 : ℚ), (0 : ℚ))] : List (ℚ × ℚ)) ≠ [] ∧
      ConstraintedSampler.sample (fun _ _ _ => (0, 3/5)) id [(1, 0)] 1 1
        = some [(0, 3)] ∧
      ([((0 : ℚ), (3 : ℚ))] : List (ℚ × ℚ)).length = 1) := by
  refine ⟨samplers_sample_length.1 (fun _ => (1, 2)) 3, ⟨by decide, ?_, ?_⟩,
    ⟨fun l => List.Perm.refl l, by decide, ?_, ?_⟩⟩
  · simp [GaussianMixture.sample, gmOffset, List.range_succ]
  · exact samplers_sample_length.2.1 (fun _ _ => (0, 0)) 2
      [(-3, 0), (3, 0), (0, -3), (0, 3)] (by decide)
      (by simp [GaussianMixture.sample, gmOffset, List.range_succ])
  · norm_num [ConstraintedSampler.sample, drawTerms, constrainedDraw,
      Gaussian.sample, List.range_succ, rotateValid, term1]
  · exact samplers_sample_length.2.2 (fun _ _ _ => (0, 3/5)) id [(1, 0)] 1 1
      [(0, 3)] (fun l => List.Perm.refl l) (by decide)
      (by norm_num [ConstraintedSampler.sample, drawTerms, constrainedDraw,
        Gaussian.sample, List.range_succ, rotateValid, term1])

/-- The early-stopping bookkeeping of `GenerativeTrainer.main`: `best_loss`
(initially `np.inf`, hence `WithTop ℚ`) and the consecutive
non-improvement counter `count_valid_not_improving`. -/
structure ESState where
  best_loss : WithTop ℚ
  count : ℕ
  deriving DecidableEq

/-- Embeds `vld_loss >= self.best_loss` under IEEE float comparison semantics: a NaN
validation loss (`none`) compares false. -/
def vldGe (v : Option ℚ) (b : WithTop ℚ) : Bool :=
  match v with
  | none => false
  | some q => decide (b ≤ (q : WithTop ℚ))

/-- Embeds `vld_loss < self.best_loss` under IEEE float comparison semantics: a NaN
validation loss (`none`) compares false. -/
def vldLt (v : Option ℚ) (b : WithTop ℚ) : Bool :=
  match v with
  | none => false
  | some q => decide ((q : WithTop ℚ) < b)

/-- One epoch of `GenerativeTrainer.main`'s loop body after the validation
loss `v` arrives, in source order: bump or reset
`count_valid_not_improving`, break when it exceeds `early_stopping_lim`,
break on NaN, else update `best_loss` on strict improvement.  Returns the
post-state and whether the loop breaks. -/
def mainStep (lim : ℕ) (s : ESState) (v : Option ℚ) : ESState × Bool :=
  let count' := if vldGe v s.best_loss then s.count + 1 else 0
  if lim < count' then (⟨s.best_loss, count'⟩, true)
  else if v = none then (⟨s.best_loss, count'⟩, true)
  else if vldLt v s.best_loss then (⟨((v.getD 0 : ℚ) : WithTop ℚ), count'⟩, false)
  else (⟨s.best_loss, count'⟩, false)

/-- The epochs `GenerativeTrainer.main` actually processes, given the
per-epoch validation losses `vs` (`none` for NaN): each entry records the
epoch's validation loss, the state before it and the state after it, and the
trace stops at the first break. -/
def mainRun (lim : ℕ) : ESState → List (Option ℚ) → List (Option ℚ × ESState × ESState)
  | _, [] => []
  | s, v :: vs =>
      if (mainStep lim s v).2 then [(v, s, (mainStep lim s v).1)]
      else (v, s, (mainStep lim s v).1) :: mainRun lim (mainStep lim s v).1 vs

/-- Running minimum of the non-NaN validation losses, from `m`. -/
def minFrom (m : WithTop ℚ) (vs : List (Option ℚ)) : WithTop ℚ :=
  vs.foldl (fun acc v => match v with
    | none => acc
    | some q => min acc (q : WithTop ℚ)) m

lemma mainStep_best (lim : ℕ) (s : ESState) (v : Option ℚ) :
    ((mainStep lim s v).1).best_loss =
      match v with
      | none => s.best_loss
      | some q => min s.best_loss (q : WithTop ℚ) := by
  cases v with
  | none => simp [mainStep, vldGe, vldLt]
  | some q =>
      by_cases hlt : ((q : WithTop ℚ) < s.best_loss)
      · have hge : ¬ s.best_loss ≤ (q : WithTop ℚ) := not_le_of_lt hlt
        simp [mainStep, vldGe, vldLt, hlt, hge, min_eq_right (le_of_lt hlt)]
      · have hge : s.best_loss ≤ (q : WithTop ℚ) := not_lt.mp hlt
        simp only [mainStep, vldGe, vldLt, hlt, decide_eq_true_eq]
        split_ifs <;> simp [min_eq_left hge]

lemma mainStep_count (lim : ℕ) (s : ESState) (v : Option ℚ) :
    ((mainStep lim s v).1).count
      = (if vldGe v s.best_loss then s.count + 1 else 0) := by
  simp only [mainStep]
  split_ifs <;> rfl

lemma mainStep_not_break (lim : ℕ) (s : ESState) (v : Option ℚ)
    (h : (mainStep lim s v).2 = false) :
    v ≠ none ∧ ((mainStep lim s v).1).count ≤ lim := by
  by_cases h1 : lim < (if vldGe v s.best_loss then s.count + 1 else 0)
  · simp only [mainStep] at h
    rw [if_pos h1] at h
    simp at h
  by_cases h2 : v = none
  · simp only [mainStep] at h
    rw [if_neg h1, if_pos h2] at h
    simp at h
  refine ⟨h2, ?_⟩
  rw [mainStep_count]
  exact Nat.le_of_not_lt h1

lemma mainRun_initial_segment (lim : ℕ) (s : ESState) (vs : List (Option ℚ)) :
    (mainRun lim s vs).map (fun e => e.1)
      = vs.take (mainRun lim s vs).length := by
  induction vs generalizing s with
  | nil => simp [mainRun]
  | cons v vs ih =>
      by_cases hb : (mainStep lim s v).2
      · rw [mainRun, if_pos hb]
        simp
      · rw [mainRun, if_neg hb]
        simp only [List.map_cons, List.length_cons, List.take_succ_cons]
        rw [ih]

lemma mainRun_entry (lim : ℕ) (s : ESState) (vs : List (Option ℚ)) :
    ∀ k e, (mainRun lim s vs).get? k = some e →
      e.2.2 = (mainStep lim e.2.1 e.1).1 := by
  induction vs generalizing s with
  | nil => intro k e he; simp [mainRun] at he
  | cons v vs ih =>
      intro k e he
      rw [mainRun] at he
      by_cases hb : (mainStep lim s v).2
      · rw [if_pos hb] at he
        cases k with
        | zero => cases Option.some_inj.mp he; rfl
        | succ k => simp at he
      · rw [if_neg hb] at he
        cases k with
        | zero => cases Option.some_inj.mp he; rfl
        | succ k => exact ih (mainStep lim s v).1 k e he

lemma mainRun_nan_last (lim : ℕ) (s : ESState) (vs : List (Option ℚ)) :
    ∀ k e, (mainRun lim s vs).get? k = some e → e.1 = none →
      k = (mainRun lim s vs).length - 1 := by
  induction vs generalizing s with
  | nil => intro k e he _; simp [mainRun] at he
  | cons v vs ih =>
      intro k e he hnan
      rw [mainRun] at he ⊢
      by_cases hb : (mainStep lim s v).2
      · rw [if_pos hb] at he ⊢
        cases k with
        | zero => simp
        | succ k => simp at he
      · rw [if_neg hb] at he ⊢
        cases k with
        | zero =>
            cases Option.some_inj.mp he
            exact absurd hnan ((mainStep_not_break lim s v (by simpa using hb)).1)
        | succ k =>
            have hlt : k < (mainRun lim (mainStep lim s v).1 vs).length := by
              obtain ⟨hlt2, -⟩ := List.get?_eq_some.mp he
              simpa using hlt2
            have hk := ih (mainStep lim s v).1 k e he hnan
            simp only [List.length_cons]
            omega

lemma mainRun_count_last (lim : ℕ) (s : ESState) (vs : List (Option ℚ)) :
    ∀ k e, (mainRun lim s vs).get? k = some e → lim < e.2.2.count →
      k = (mainRun lim s vs).length - 1 := by
  induction vs generalizing s with
  | nil => intro k e he _; simp [mainRun] at he
  | cons v vs ih =>
      intro k e he hcount
      rw [mainRun] at he ⊢
      by_cases hb : (mainStep lim s v).2
      · rw [if_pos hb] at he ⊢
        cases k with
        | zero => simp
        | succ k => simp at he
      · rw [if_neg hb] at he ⊢
        cases k with
        | zero =>
            cases Option.some_inj.mp he
            have h1 := (mainStep_not_break lim s v (by simpa using hb)).2
            have h2 : lim < ((mainStep lim s v).1).count := hcount
            omega
        | succ k =>
            have hlt : k < (mainRun lim (mainStep lim s v).1 vs).length := by
              obtain ⟨hlt2, -⟩ := List.get?_eq_some.mp he
              simpa using hlt2
            have hk := ih (mainStep lim s v).1 k e he hcount
            simp only [List.length_cons]
            omega

lemma mainRun_best (lim : ℕ) (s : ESState) (vs : List (Option ℚ)) :
    ∀ k e, (mainRun lim s vs).get? k = some e →
      e.2.2.best_loss
        = minFrom s.best_loss
            (((mainRun lim s vs).take (k + 1)).map (fun e => e.1)) := by
  induction vs generalizing s with
  | nil => intro k e he; simp [mainRun] at he
  | cons v vs ih =>
      intro k e he
      rw [mainRun] at he ⊢
      by_cases hb : (mainStep lim s v).2
      · rw [if_pos hb] at he ⊢
        cases k with
        | zero =>
            cases Option.some_inj.mp he
            simpa [minFrom] using mainStep_best lim s v
        | succ k => simp at he
      · rw [if_neg hb] at he ⊢
        cases k with
        | zero =>
            cases Option.some_inj.mp he
            simpa [minFrom] using mainStep_best lim s v
        | succ k =>
            have hstep := ih (mainStep lim s v).1 k e he
            rw [List.take_succ_cons, List.map_cons]
            have hshift : minFrom s.best_loss
                (v :: ((mainRun lim (mainStep lim s v).1 vs).take (k + 1)).map
                  (fun e => e.1))
                = minFrom ((mainStep lim s v).1).best_loss
                  (((mainRun lim (mainStep lim s v).1 vs).take (k + 1)).map
                    (fun e => e.1)) := by
              rw [minFrom, List.foldl_cons, mainStep_best]
              cases v <;> rfl
            rw [hshift]
            exact hstep

/-- Claim C10: along any sequence of per-epoch validation losses (`none` for
NaN), the epochs `GenerativeTrainer.main` processes form a prefix of the
sequence; a NaN loss occurs only at the last processed epoch; a
non-improvement count exceeding `early_stopping_lim` occurs only at the last
processed epoch; each strictly improving epoch resets the counter to 0 and
sets `best_loss` to that epoch's loss; and after every processed epoch
`best_loss` is the minimum of the (non-NaN) validation losses observed so
far, starting from infinity. -/
theorem main_early_stopping (lim : ℕ) (vs : List (Option ℚ)) :
    ((mainRun lim ⟨⊤, 0⟩ vs).map (fun e => e.1)
        = vs.take (mainRun lim ⟨⊤, 0⟩ vs).length) ∧
    (∀ k e, (mainRun lim ⟨⊤, 0⟩ vs).get? k = some e → e.1 = none →
      k = (mainRun lim ⟨⊤, 0⟩ vs).length - 1) ∧
    (∀ k e, (mainRun lim ⟨⊤, 0⟩ vs).get? k = some e → lim < e.2.2.count →
      k = (mainRun lim ⟨⊤, 0⟩ vs).length - 1) ∧
    (∀ k e, (mainRun lim ⟨⊤, 0⟩ vs).get? k = some e →
      vldLt e.1 e.2.1.best_loss = true →
      e.2.2.count = 0 ∧ e.2.2.best_loss = ((e.1.getD 0 : ℚ) : WithTop ℚ)) ∧
    (∀ k e, (mainRun lim ⟨⊤, 0⟩ vs).get? k = some e →
      e.2.2.best_loss
        = minFrom ⊤ (((mainRun lim ⟨⊤, 0⟩ vs).take (k + 1)).map (fun e => e.1))) := by
  refine ⟨mainRun_initial_segment lim ⟨⊤, 0⟩ vs, mainRun_nan_last lim ⟨⊤, 0⟩ vs,
    mainRun_count_last lim ⟨⊤, 0⟩ vs, ?_, mainRun_best lim ⟨⊤, 0⟩ vs⟩
  intro k e he hlt
  obtain ⟨q, hq⟩ : ∃ q : ℚ, e.1 = some q := by
    cases hv : e.1 with
    | none => rw [hv] at hlt; simp [vldLt] at hlt
    | some q => exact ⟨q, rfl⟩
  have hstep := mainRun_entry lim ⟨⊤, 0⟩ vs k e he
  have hqlt : ((q : WithTop ℚ) < e.2.1.best_loss) := by
    rw [hq] at hlt
    simpa [vldLt] using hlt
  have hnge : vldGe e.1 e.2.1.best_loss = false := by
    rw [hq]
    simp [vldGe, not_le_of_lt hqlt]
  constructor
  · rw [hstep, mainStep_count, hnge]
    rfl
  · rw [hstep, mainStep_best, hq]
    simp [min_eq_right (le_of_lt hqlt), hq]

/-- Concrete instantiation of `main_early_stopping` with `lim = 1` and losses
`[5, 7, 3, NaN, 2]`: exactly the first four epochs are processed, the NaN
epoch is last, epoch 2 strictly improves (resetting the counter and setting
`best_loss` to 3), and `best_loss` after epoch 1 is `min {5, 7} = 5`. -/
theorem main_early_stopping_witness :
    ((mainRun 1 ⟨⊤, 0⟩ [some 5, some 7, some 3, none, some 2]).length = 4) ∧
    ((mainRun 1 ⟨⊤, 0⟩ [some 5, some 7, some 3, none, some 2]).get? 3
        = some (none, ⟨((3 : ℚ) : WithTop ℚ), 0⟩, ⟨((3 : ℚ) : WithTop ℚ), 0⟩) ∧
      (3 : ℕ) = (mainRun 1 ⟨⊤, 0⟩ [some 5, some 7, some 3, none, some 2]).length - 1) ∧
    ((mainRun 1 ⟨⊤, 0⟩ [some 5, some 7, some 3, none, some 2]).get? 2
        = some (some 3, ⟨((5 : ℚ) : WithTop ℚ), 1⟩, ⟨((3 : ℚ) : WithTop ℚ), 0⟩) ∧
      vldLt (some 3) ((5 : ℚ) : WithTop ℚ) = true ∧
      (0 : ℕ) = 0 ∧ ((3 : ℚ) : WithTop ℚ) = (((some (3 : ℚ)).getD 0 : ℚ) : WithTop ℚ)) ∧
    ((mainRun 1 ⟨⊤, 0⟩ [some 5, some 7, some 3, none, some 2]).get? 1
        = some (some 7, ⟨((5 : ℚ) : WithTop ℚ), 0⟩, ⟨((5 : ℚ) : WithTop ℚ), 1⟩) ∧
      ((5 : ℚ) : WithTop ℚ)
        = minFrom ⊤ (((mainRun 1 ⟨⊤, 0⟩ [some 5, some 7, some 3, none, some 2]).take 2).map
            (fun e => e.1))) := by
  refine ⟨by decide, ⟨by decide, ?_⟩, ⟨by decide, by decide, ?_⟩, ⟨by decide, ?_⟩⟩
  · exact (main_early_stopping 1 [some 5, some 7, some 3, none, some 2]).2.1 3
      (none, ⟨((3 : ℚ) : WithTop ℚ), 0⟩, ⟨((3 : ℚ) : WithTop ℚ), 0⟩) (by decide) (by decide)
  · have h := (main_early_stopping 1 [some 5, some 7, some 3, none, some 2]).2.2.2.1 2
      (some 3, ⟨((5 : ℚ) : WithTop ℚ), 1⟩, ⟨((3 : ℚ) : WithTop ℚ), 0⟩) (by decide) (by decide)
    exact ⟨h.1.symm ▸ rfl, h.2⟩
  · have h := (main_early_stopping 1 [some 5, some 7, some 3, none, some 2]).2.2.2.2 1
      (some 7, ⟨((5 : ℚ) : WithTop ℚ), 0⟩, ⟨((5 : ℚ) : WithTop ℚ), 1⟩) (by decide)
    exact h

/-- Concrete instantiation of `get_samplers_spec` at labels `[0,1,0,0,0]`,
`n = 1`, two classes and the identity shuffle, discharging the membership
hypotheses of the disjointness and containment parts by computation. -/
theorem get_samplers_spec_witness :
    (((get_samplers_indices [0, 1, 0, 0, 0] 1 2 [0, 1, 2, 3, 4]).1.toFinset.filter
        (fun idx => ([0, 1, 0, 0, 0] : List ℤ).getD idx 0 = ((0 : ℕ) : ℤ))).card ≤ 1) ∧
    ((0 : ℕ) ∈ (get_samplers_indices [0, 1, 0, 0, 0] 1 2 [0, 1, 2, 3, 4]).1 ∧
      (0 : ℕ) ∉ (get_samplers_indices [0, 1, 0, 0, 0] 1 2 [0, 1, 2, 3, 4]).2) ∧
    ((2 : ℕ) ∈ (get_samplers_indices [0, 1, 0, 0, 0] 1 2 [0, 1, 2, 3, 4]).2 ∧
      (2 : ℕ) ∈ ([0, 1, 2, 3, 4] : List ℕ)) := by
  refine ⟨(get_samplers_spec [0, 1, 0, 0, 0] 1 2 [0, 1, 2, 3, 4]).1 0,
    ⟨by decide, (get_samplers_spec [0, 1, 0, 0, 0] 1 2 [0, 1, 2, 3, 4]).2.1 0 (by decide)⟩,
    ⟨by decide, (get_samplers_spec [0, 1, 0, 0, 0] 1 2 [0, 1, 2, 3, 4]).2.2 2
      (Or.inr (by decide))⟩⟩
